import Mathlib

/-!
Verification of the sensitive-word service (src/src/ac.rs, src/src/filter.rs).

Texts and words are modelled as lists of bytes (`List Nat`, each entry the
value of one byte).  The `aho_corasick` crate is used by the source through
`AhoCorasick::new` (default `MatchKind::Standard`) and `find_iter`; its
documented standard-semantics, non-overlapping iteration is modelled here as
a pure function: each step reports the match with the least end offset in the
unconsumed suffix, choosing the longest pattern ending there (earliest
registered among equals), then resumes at the end of the reported span
(one byte further for an empty match).  File contents and the filesystem are
modelled explicitly as values so that the service operations of filter.rs
become pure state transformers.
-/

namespace SensitiveWord

/-- A byte string: one `Nat` per byte. -/
abbrev ByteStr := List Nat

/-- Occurrence test: pattern `p` occurs in `text` starting at byte offset `s`. -/
def occursAt (text p : ByteStr) (s : Nat) : Bool :=
  decide ((text.drop s).take p.length = p)

/-- Pair every element of a list with its index, starting at `i`. -/
def enumF (i : Nat) : List ByteStr → List (Nat × ByteStr)
  | [] => []
  | p :: ps => (i, p) :: enumF (i + 1) ps

/-- All patterns (with their pattern ids) whose occurrence ends exactly at
offset `e`, lying wholly inside `text` at offsets not before `pos`.  These are
the matches the standard Aho-Corasick automaton, started at `pos`, can report
when it has consumed the bytes up to `e`. -/
def candidatesAt (pats : List ByteStr) (text : ByteStr) (pos e : Nat) :
    List (Nat × ByteStr) :=
  (enumF 0 pats).filter
    (fun ip => decide (pos + ip.2.length ≤ e) && occursAt text ip.2 (e - ip.2.length))

/-- Choose the reported candidate: the automaton state reached at the match
end lists the longest pattern first, duplicates in registration order. -/
def pickBest (c : Nat × ByteStr) (cs : List (Nat × ByteStr)) : Nat × ByteStr :=
  cs.foldl (fun best x => if best.2.length < x.2.length then x else best) c

/-- One standard-semantics search from offset `pos`: try end offsets
`e, e+1, …` (at most `k` of them) and stop at the first one where some
pattern ends; report `(start, end, pattern id)`. -/
def findFromAux (pats : List ByteStr) (text : ByteStr) (pos : Nat) :
    Nat → Nat → Option (Nat × Nat × Nat)
  | _, 0 => none
  | e, k + 1 =>
    match candidatesAt pats text pos e with
    | [] => findFromAux pats text pos (e + 1) k
    | c :: cs => some (e - (pickBest c cs).2.length, e, (pickBest c cs).1)

/-- First standard-semantics match of any pattern at or after offset `pos`. -/
def findFrom (pats : List ByteStr) (text : ByteStr) (pos : Nat) :
    Option (Nat × Nat × Nat) :=
  findFromAux pats text pos pos (text.length + 1 - pos)

/-- Non-overlapping iteration (`find_iter`): report a match, resume at its
end offset (one further when the match is empty).  `k` is fuel; the scan
position strictly increases, so `text.length + 2` steps always suffice. -/
def findMatchesFrom (pats : List ByteStr) (text : ByteStr) :
    Nat → Nat → List (Nat × Nat × Nat)
  | _, 0 => []
  | pos, k + 1 =>
    match findFrom pats text pos with
    | none => []
    | some (s, e, i) =>
      (s, e, i) :: findMatchesFrom pats text (if e = s then e + 1 else e) k

/-- All non-overlapping standard-semantics matches of `pats` in `text`,
as `(start, end, pattern id)` triples in scan order. -/
def findMatches (pats : List ByteStr) (text : ByteStr) : List (Nat × Nat × Nat) :=
  findMatchesFrom pats text 0 (text.length + 2)

/-- The `AcMachine` struct of ac.rs: the word list and the optional compiled
matcher.  The compiled `AhoCorasick` value is fully determined by the pattern
list it was built from, so the `ac` field is modelled as that pattern list. -/
structure AcMachine where
  words : List ByteStr
  ac : Option (List ByteStr)
deriving DecidableEq

/-- `AcMachine::new`: empty word list, no matcher. -/
def AcMachine.new : AcMachine := ⟨[], none⟩

/-- `AcMachine::build`: with an empty word list only a warning is logged and
the machine is left unchanged; otherwise the matcher is compiled from the
current word list. -/
def AcMachine.build (m : AcMachine) : AcMachine :=
  if m.words.isEmpty then m else { m with ac := some m.words }

/-- `AcMachine::from_words`: store the word list, then build. -/
def AcMachine.from_words (ws : List ByteStr) : AcMachine :=
  AcMachine.build ⟨ws, none⟩

/-- `AcMachine::find_matches`: if a matcher is present, map every match of
`find_iter` to `(start, end, words[pattern id])`; otherwise log a warning and
return the empty vector.  The id lookup `self.words[mat.pattern()]` is
modelled total via `getD`; in-bounds access is proved separately. -/
def AcMachine.find_matches (m : AcMachine) (text : ByteStr) :
    List (Nat × Nat × ByteStr) :=
  match m.ac with
  | some pats => (findMatches pats text).map (fun x => (x.1, x.2.1, m.words.getD x.2.2 []))
  | none => []

/-- Replace the bytes of `t` at offsets `[s, e)` by byte 42, the code of
the mask character of ac.rs. -/
def maskRange (t : ByteStr) (s e : Nat) : ByteStr :=
  t.take s ++ List.replicate (e - s) 42 ++ t.drop e

/-- The replacement loop of `AcMachine::filter_text`: apply `maskRange` for
each listed span in order (the source iterates the collected matches from the
last to the first). -/
def applyMasks (t : ByteStr) (ms : List (Nat × Nat × Nat)) : ByteStr :=
  ms.foldl (fun acc x => maskRange acc x.1 x.2.1) t

/-- `AcMachine::filter_text`: if a matcher is present, collect the matches of
`find_iter` and replace each span, iterating from the last match backwards,
by mask bytes of the same length; otherwise log a warning and return the
input text unchanged. -/
def AcMachine.filter_text (m : AcMachine) (text : ByteStr) : ByteStr :=
  match m.ac with
  | some pats => applyMasks text (findMatches pats text).reverse
  | none => text

/-- `AcMachine::save_to_file` encodes the machine with bincode; the `ac`
field carries `serde(skip)`, so the persisted record is the word list only.
The encoding is modelled as the word list itself (bincode decode inverts
encode, which is the serialization contract the source relies on). -/
def AcMachine.persist (m : AcMachine) : List ByteStr := m.words

/-- `AcMachine::load_from_file` on successfully decoded bytes: the decoded
machine has `ac = None` (the field is skipped), and `build()` is run before
returning. -/
def AcMachine.restore (rec : List ByteStr) : AcMachine :=
  AcMachine.build ⟨rec, none⟩

/-- The single-byte (ASCII) Unicode White_Space characters:
U+0009-U+000D and U+0020. -/
def isWs (b : Nat) : Bool :=
  b == 32 || b == 9 || b == 10 || b == 13 || b == 11 || b == 12

/-- The UTF-8 encodings, as two-byte lists, of the two-byte Unicode
White_Space characters: U+0085 (194, 133) and U+00A0 (194, 160). -/
def ws2 : ByteStr → Bool
  | [194, 133] => true
  | [194, 160] => true
  | _ => false

/-- The UTF-8 encodings, as three-byte lists, of the three-byte Unicode
White_Space characters: U+1680, U+2000-U+200A, U+2028, U+2029, U+202F,
U+205F and U+3000. -/
def ws3 : ByteStr → Bool
  | [225, 154, 128] => true
  | [226, 128, b3] =>
    (128 ≤ b3 && b3 ≤ 138) || b3 == 168 || b3 == 169 || b3 == 175
  | [226, 129, 159] => true
  | [227, 128, 128] => true
  | _ => false

/-- Byte length of the leading character of `l` when it is a Unicode
White_Space character (the `char::is_whitespace` set used by `str::trim`),
`none` otherwise.  The bytes 194, 225, 226 and 227 are UTF-8 lead bytes,
never continuation bytes, so on valid UTF-8 these byte tests identify the
leading character exactly. -/
def wsCharLen (l : ByteStr) : Option Nat :=
  match l with
  | [] => none
  | b :: _ =>
    if isWs b then some 1
    else if ws2 (l.take 2) then some 2
    else if ws3 (l.take 3) then some 3
    else none

/-- Byte length of the trailing character of `l` when it is a Unicode
White_Space character, `none` otherwise (the mirror of `wsCharLen`; on valid
UTF-8 the last one, two or three bytes form the final character exactly when
the corresponding test fires, because lead and continuation bytes are
disjoint). -/
def wsCharLenEnd (l : ByteStr) : Option Nat :=
  match l.getLast? with
  | none => none
  | some b =>
    if isWs b then some 1
    else if ws2 (l.drop (l.length - 2)) then some 2
    else if ws3 (l.drop (l.length - 3)) then some 3
    else none

/-- Fuel-driven loop of `trimStart`: drop one leading whitespace character
per round. -/
def trimStartAux : Nat → ByteStr → ByteStr
  | 0, l => l
  | k + 1, l =>
    match wsCharLen l with
    | some n => trimStartAux k (l.drop n)
    | none => l

/-- Model of `str::trim_start`: repeatedly drop a leading Unicode
White_Space character.  Every round drops at least one byte, so `l.length`
rounds always reach the fixed point. -/
def trimStart (l : ByteStr) : ByteStr := trimStartAux l.length l

/-- Fuel-driven loop of `trimEnd`: drop one trailing whitespace character
per round. -/
def trimEndAux : Nat → ByteStr → ByteStr
  | 0, l => l
  | k + 1, l =>
    match wsCharLenEnd l with
    | some n => trimEndAux k (l.take (l.length - n))
    | none => l

/-- Model of `str::trim_end`: repeatedly drop a trailing Unicode White_Space
character. -/
def trimEnd (l : ByteStr) : ByteStr := trimEndAux l.length l

/-- Model of `str::trim`: strip Unicode White_Space characters from both
ends. -/
def trimB (l : ByteStr) : ByteStr := trimEnd (trimStart l)

/-- Split a byte string at every newline byte (10); the separators are
consumed.  An empty input yields one empty piece. -/
def splitNL : ByteStr → List ByteStr
  | [] => [[]]
  | b :: r =>
    if b = 10 then [] :: splitNL r
    else
      match splitNL r with
      | [] => [[b]]
      | l :: ls => (b :: l) :: ls

/-- Drop one trailing carriage-return byte (13). -/
def stripCR (l : ByteStr) : ByteStr :=
  if l.getLast? = some 13 then l.dropLast else l

/-- Model of `str::lines`: split at newlines; every piece except the final
one was newline-terminated and gets one carriage return before that newline
stripped (line endings are `\n` or `\r\n`); the final, unterminated piece is
kept verbatim when non-empty and dropped when empty (a trailing line
terminator does not open a new line). -/
def rustLines (c : ByteStr) : List ByteStr :=
  let parts := splitNL c
  let init := parts.dropLast.map stripCR
  match parts.getLast? with
  | none => init
  | some [] => init
  | some last => init ++ [last]

/-- The dictionary parse of `SensitiveFilter::rebuild_index`: keep the lines
that are not blank after trimming, then trim each kept line. -/
def parseDict (c : ByteStr) : List ByteStr :=
  ((rustLines c).filter (fun l => !(trimB l).isEmpty)).map trimB

/-- State of the persisted index file as `SensitiveFilter::init` can observe
it: absent, present but failing to read or decode, or decoding to a record. -/
inductive IndexFileState
  | absent
  | corrupt
  | good (rec : List ByteStr)
deriving DecidableEq

/-- The filesystem as the service observes it: the content of the dictionary
source file (`none` when absent), the persisted index file, and whether
writing the index file fails. -/
structure World where
  dicFile : Option ByteStr
  indexFile : IndexFileState
  persistFails : Bool
deriving DecidableEq

/-- The error cases of `SensitiveFilter::rebuild_index`. -/
inductive RErr
  | notFound
  | emptyDictionary
  | ioError
deriving DecidableEq

/-- A `Result<()>` of the service layer. -/
inductive RRes
  | ok
  | err (e : RErr)
deriving DecidableEq

/-- Result of a service operation: the returned value, the live machine
behind the lock afterwards, and the filesystem afterwards. -/
structure Outcome where
  res : RRes
  live : AcMachine
  world : World
deriving DecidableEq

/-- `SensitiveFilter::rebuild_index`: missing dictionary file fails with
NotFound; an empty parsed word list fails with EmptyDictionary; a new machine
is built and persisted, any persist failure aborting with an IO error; only
after a successful persist is the live machine swapped. -/
def SensitiveFilter.rebuild_index (w : World) (live : AcMachine) : Outcome :=
  match w.dicFile with
  | none => ⟨.err .notFound, live, w⟩
  | some c =>
    let words := parseDict c
    if words.isEmpty then ⟨.err .emptyDictionary, live, w⟩
    else
      let machine := AcMachine.from_words words
      if w.persistFails then ⟨.err .ioError, live, w⟩
      else ⟨.ok, machine, { w with indexFile := .good machine.persist }⟩

/-- `SensitiveFilter::init`: when the index file loads, swap the restored
machine in and return; when it is absent, or present but failing to load,
fall back to `rebuild_index`. -/
def SensitiveFilter.init (w : World) (live : AcMachine) : Outcome :=
  match w.indexFile with
  | .good rec => ⟨.ok, AcMachine.restore rec, w⟩
  | .corrupt => SensitiveFilter.rebuild_index w live
  | .absent => SensitiveFilter.rebuild_index w live

/-- `SensitiveFilter::filter`: delegate to `filter_text` on the live machine. -/
def SensitiveFilter.filter (live : AcMachine) (text : ByteStr) : ByteStr :=
  live.filter_text text

/-- `SensitiveFilter::find_sensitive_words`: delegate to `find_matches` on
the live machine and keep only the matched words. -/
def SensitiveFilter.find_sensitive_words (live : AcMachine) (text : ByteStr) :
    List ByteStr :=
  (live.find_matches text).map (fun x => x.2.2)

/-- A continuation byte of UTF-8: high bits `10`. -/
def contB (b : Nat) : Bool := 128 ≤ b && b < 192

/-- Valid UTF-8 byte sequences (by lead-byte ranges; a relaxation of strict
UTF-8, so every Rust string satisfies it). -/
inductive ValidUtf8 : ByteStr → Prop
  | nil : ValidUtf8 []
  | one {b : Nat} {r : ByteStr} : b < 128 → ValidUtf8 r → ValidUtf8 (b :: r)
  | two {b1 b2 : Nat} {r : ByteStr} : 192 ≤ b1 → b1 < 224 → contB b2 = true →
      ValidUtf8 r → ValidUtf8 (b1 :: b2 :: r)
  | three {b1 b2 b3 : Nat} {r : ByteStr} : 224 ≤ b1 → b1 < 240 →
      contB b2 = true → contB b3 = true → ValidUtf8 r →
      ValidUtf8 (b1 :: b2 :: b3 :: r)
  | four {b1 b2 b3 b4 : Nat} {r : ByteStr} : 240 ≤ b1 → contB b2 = true →
      contB b3 = true → contB b4 = true → ValidUtf8 r →
      ValidUtf8 (b1 :: b2 :: b3 :: b4 :: r)

/-- Rust `str::is_char_boundary` on the byte level: the end of the string,
or a byte that is not a continuation byte.  `String::replace_range` panics
exactly when an end of the range is not such a boundary. -/
def IsBoundary (t : ByteStr) (i : Nat) : Prop :=
  i = t.length ∨ (i < t.length ∧ contB (t.getD i 0) = false)

/-- The invariant of the spec data model: the compiled matcher, when present,
was built from exactly the current word list. -/
def AcMachine.Consistent (m : AcMachine) : Prop :=
  ∀ pats, m.ac = some pats → pats = m.words

lemma enumF_mem {i0 i : Nat} {p : ByteStr} {ps : List ByteStr}
    (h : (i, p) ∈ enumF i0 ps) :
    i0 ≤ i ∧ i - i0 < ps.length ∧ ps.getD (i - i0) [] = p := by
  induction ps generalizing i0 with
  | nil => simp [enumF] at h
  | cons q qs ih =>
    rw [enumF, List.mem_cons] at h
    rcases h with h | h
    · obtain ⟨h1, h2⟩ := Prod.mk.injEq .. ▸ h
      subst h1; subst h2; simp
    · obtain ⟨h1, h2, h3⟩ := ih h
      refine ⟨by omega, by simp; omega, ?_⟩
      have he : i - i0 = (i - (i0 + 1)) + 1 := by omega
      rw [he, List.getD_cons_succ]
      exact h3

lemma enumF_zero_mem {i : Nat} {p : ByteStr} {ps : List ByteStr}
    (h : (i, p) ∈ enumF 0 ps) : i < ps.length ∧ ps.getD i [] = p := by
  obtain ⟨-, h2, h3⟩ := enumF_mem h
  constructor
  · simpa using h2
  · simpa using h3

lemma candidatesAt_sound {pats : List ByteStr} {text : ByteStr} {pos e i : Nat}
    {p : ByteStr} (h : (i, p) ∈ candidatesAt pats text pos e) :
    i < pats.length ∧ pats.getD i [] = p ∧ pos + p.length ≤ e ∧
      (text.drop (e - p.length)).take p.length = p := by
  rw [candidatesAt, List.mem_filter] at h
  obtain ⟨hmem, hcond⟩ := h
  simp only [occursAt, Bool.and_eq_true, decide_eq_true_eq] at hcond
  obtain ⟨h1, h2⟩ := enumF_zero_mem hmem
  exact ⟨h1, h2, hcond.1, hcond.2⟩

lemma pickBest_mem (cs : List (Nat × ByteStr)) (c : Nat × ByteStr) :
    pickBest c cs ∈ c :: cs := by
  induction cs generalizing c with
  | nil => simp [pickBest]
  | cons d ds ih =>
    have h2 := ih (if c.2.length < d.2.length then d else c)
    rw [pickBest] at h2 ⊢
    rw [List.foldl_cons]
    rcases List.mem_cons.mp h2 with h | h
    · rw [show (List.foldl (fun best x =>
          if best.2.length < x.2.length then x else best)
          (if c.2.length < d.2.length then d else c) ds) = _ from h]
      by_cases hc : c.2.length < d.2.length <;> simp [hc]
    · simp only [List.mem_cons]
      right; right; exact h

lemma pickBest_max (cs : List (Nat × ByteStr)) (c : Nat × ByteStr) :
    ∀ x ∈ c :: cs, x.2.length ≤ (pickBest c cs).2.length := by
  induction cs generalizing c with
  | nil =>
    intro x hx
    rcases List.mem_cons.mp hx with h | h
    · subst h; simp [pickBest]
    · simp at h
  | cons d ds ih =>
    intro x hx
    have hgoal : (pickBest c (d :: ds)) =
        pickBest (if c.2.length < d.2.length then d else c) ds := by
      rw [pickBest, pickBest, List.foldl_cons]
    rw [hgoal]
    have hkey : ∀ y ∈ (if c.2.length < d.2.length then d else c) :: ds,
        y.2.length ≤ (pickBest (if c.2.length < d.2.length then d else c) ds).2.length :=
      ih _
    rcases List.mem_cons.mp hx with h | h
    · subst h
      have hx2 : x.2.length ≤ (if x.2.length < d.2.length then d else x).2.length := by
        by_cases hc : x.2.length < d.2.length <;> simp [hc] <;> omega
      exact le_trans hx2 (hkey _ (List.mem_cons_self _ _))
    · rcases List.mem_cons.mp h with h | h
      · subst h
        have hx2 : x.2.length ≤ (if c.2.length < x.2.length then x else c).2.length := by
          by_cases hc : c.2.length < x.2.length <;> simp [hc] <;> omega
        exact le_trans hx2 (hkey _ (List.mem_cons_self _ _))
      · exact hkey _ (List.mem_cons_of_mem _ h)

lemma findFromAux_sound {pats : List ByteStr} {text : ByteStr} {pos : Nat} :
    ∀ {k e s e' i}, findFromAux pats text pos e k = some (s, e', i) →
      e ≤ e' ∧ e' < e + k ∧
        ∃ p, (i, p) ∈ candidatesAt pats text pos e' ∧ s = e' - p.length ∧
          ∀ q ∈ candidatesAt pats text pos e', q.2.length ≤ p.length := by
  intro k
  induction k with
  | zero => intro e s e' i h; simp [findFromAux] at h
  | succ k ih =>
    intro e s e' i h
    rw [findFromAux] at h
    split at h
    · obtain ⟨h1, h2, h3⟩ := ih h
      exact ⟨by omega, by omega, h3⟩
    · next c cs heq =>
      obtain ⟨hs, he, hi⟩ : e - (pickBest c cs).2.length = s ∧ e = e' ∧
          (pickBest c cs).1 = i := by
        simpa using h
      subst hs; subst he; subst hi
      refine ⟨le_refl _, by omega, (pickBest c cs).2, ?_, rfl, ?_⟩
      · rw [heq]
        simpa using pickBest_mem cs c
      · intro q hq
        rw [heq] at hq
        exact pickBest_max cs c q hq

lemma findFromAux_min {pats : List ByteStr} {text : ByteStr} {pos : Nat} :
    ∀ {k e s e' i}, findFromAux pats text pos e k = some (s, e', i) →
      ∀ j, e ≤ j → j < e' → candidatesAt pats text pos j = [] := by
  intro k
  induction k with
  | zero => intro e s e' i h; simp [findFromAux] at h
  | succ k ih =>
    intro e s e' i h j hj1 hj2
    rw [findFromAux] at h
    split at h
    · next heq =>
      rcases Nat.eq_or_lt_of_le hj1 with h1 | h1
      · subst h1; exact heq
      · exact ih h j h1 hj2
    · next c cs heq =>
      obtain ⟨hs, he, hi⟩ : e - (pickBest c cs).2.length = s ∧ e = e' ∧
          (pickBest c cs).1 = i := by
        simpa using h
      omega

lemma findFrom_sound {pats : List ByteStr} {text : ByteStr} {pos s e i : Nat}
    (h : findFrom pats text pos = some (s, e, i)) :
    pos ≤ s ∧ s ≤ e ∧ e ≤ text.length ∧ i < pats.length ∧
      e = s + (pats.getD i []).length ∧
      occursAt text (pats.getD i []) s = true := by
  rw [findFrom] at h
  obtain ⟨h1, h2, p, hp, hs, -⟩ := findFromAux_sound h
  obtain ⟨hi, hgd, hfit, hocc⟩ := candidatesAt_sound hp
  have hpos : pos ≤ text.length := by
    by_contra hc
    have : text.length + 1 - pos = 0 := by omega
    rw [this] at h
    simp [findFromAux] at h
  have hde : e ≤ text.length := by omega
  refine ⟨by omega, by omega, hde, hi, ?_, ?_⟩
  · rw [hgd]; omega
  · rw [hgd, occursAt, decide_eq_true_eq]
    have : e - p.length = s := by omega
    rw [← this]
    exact hocc

lemma findMatchesFrom_sound {pats : List ByteStr} {text : ByteStr} :
    ∀ {k pos : Nat}, ∀ x ∈ findMatchesFrom pats text pos k,
      pos ≤ x.1 ∧ x.1 ≤ x.2.1 ∧ x.2.1 ≤ text.length ∧ x.2.2 < pats.length ∧
        x.2.1 = x.1 + (pats.getD x.2.2 []).length ∧
        occursAt text (pats.getD x.2.2 []) x.1 = true := by
  intro k
  induction k with
  | zero => intro pos x hx; simp [findMatchesFrom] at hx
  | succ k ih =>
    intro pos x hx
    rw [findMatchesFrom] at hx
    split at hx
    · simp at hx
    · next s e i hf =>
      rcases List.mem_cons.mp hx with h | h
      · subst h
        obtain ⟨h1, h2, h3, h4, h5, h6⟩ := findFrom_sound hf
        exact ⟨h1, h2, h3, h4, h5, h6⟩
      · obtain ⟨h1, hrest⟩ := ih _ h
        obtain ⟨g1, g2, -⟩ := findFrom_sound hf
        refine ⟨?_, hrest⟩
        by_cases hse : e = s <;> simp [hse] at h1 <;> omega

lemma findMatchesFrom_chain {pats : List ByteStr} {text : ByteStr} :
    ∀ {k pos : Nat},
      List.Chain' (fun a b : Nat × Nat × Nat => a.2.1 ≤ b.1)
        (findMatchesFrom pats text pos k) := by
  intro k
  induction k with
  | zero => intro pos; simp [findMatchesFrom]
  | succ k ih =>
    intro pos
    rw [findMatchesFrom]
    split
    · simp
    · next s e i hf =>
      rw [List.chain'_cons']
      refine ⟨?_, ih⟩
      intro y hy
      have hy' := List.mem_of_mem_head? hy
      have hge := (findMatchesFrom_sound y hy').1
      show e ≤ y.1
      by_cases hse : e = s <;> simp [hse] at hge <;> omega

lemma maskRange_length {t : ByteStr} {s e : Nat} (hs : s ≤ e) (he : e ≤ t.length) :
    (maskRange t s e).length = t.length := by
  simp only [maskRange, List.length_append, List.length_take,
    List.length_replicate, List.length_drop]
  omega

lemma maskRange_getD {t : ByteStr} {s e i : Nat} (hs : s ≤ e) (he : e ≤ t.length)
    (hi : i < t.length) :
    (maskRange t s e).getD i 0 = if s ≤ i ∧ i < e then 42 else t.getD i 0 := by
  have hts : (t.take s).length = s := by rw [List.length_take]; omega
  have htr : (t.take s ++ List.replicate (e - s) 42).length = e := by
    rw [List.length_append, hts, List.length_replicate]; omega
  rw [maskRange, List.getD_eq_getElem?_getD, List.getD_eq_getElem?_getD,
    List.getElem?_append, htr]
  by_cases h1 : i < e
  · rw [if_pos h1, List.getElem?_append, hts]
    by_cases h2 : i < s
    · rw [if_pos h2, List.getElem?_take, if_pos h2, if_neg (by omega)]
    · rw [if_neg h2, List.getElem?_replicate, if_pos (by omega),
        if_pos (by omega)]
      rfl
  · rw [if_neg h1, List.getElem?_drop]
    have he2 : e + (i - e) = i := by omega
    rw [he2, if_neg (by omega)]

lemma applyMasks_spec :
    ∀ (ms : List (Nat × Nat × Nat)) (t : ByteStr),
      (∀ x ∈ ms, x.1 ≤ x.2.1 ∧ x.2.1 ≤ t.length) →
      (applyMasks t ms).length = t.length ∧
        ∀ i, i < t.length →
          (applyMasks t ms).getD i 0 =
            if ∃ x ∈ ms, x.1 ≤ i ∧ i < x.2.1 then 42 else t.getD i 0 := by
  intro ms
  induction ms with
  | nil =>
    intro t h
    constructor
    · rfl
    · intro i hi
      rw [if_neg (by simp)]
      rfl
  | cons y ys ih =>
    intro t h
    have hy := h y (List.mem_cons_self _ _)
    have hlen : (maskRange t y.1 y.2.1).length = t.length :=
      maskRange_length hy.1 hy.2
    have hrec := ih (maskRange t y.1 y.2.1)
      (by intro x hx; rw [hlen]; exact h x (List.mem_cons_of_mem _ hx))
    have happ : applyMasks t (y :: ys) = applyMasks (maskRange t y.1 y.2.1) ys := by
      rw [applyMasks, applyMasks, List.foldl_cons]
    constructor
    · rw [happ, hrec.1, hlen]
    · intro i hi
      rw [happ, hrec.2 i (by omega), maskRange_getD hy.1 hy.2 hi]
      by_cases h1 : ∃ x ∈ ys, x.1 ≤ i ∧ i < x.2.1
      · rw [if_pos h1]
        obtain ⟨x, hx, hxi⟩ := h1
        rw [if_pos ⟨x, List.mem_cons_of_mem _ hx, hxi⟩]
      · rw [if_neg h1]
        by_cases h2 : y.1 ≤ i ∧ i < y.2.1
        · rw [if_pos h2, if_pos ⟨y, List.mem_cons_self _ _, h2⟩]
        · rw [if_neg h2, if_neg ?_]
          rintro ⟨x, hx, hxi⟩
          rcases List.mem_cons.mp hx with hq | hq
          · subst hq; exact h2 hxi
          · exact h1 ⟨x, hq, hxi⟩

lemma findMatches_sound {pats : List ByteStr} {text : ByteStr} :
    ∀ x ∈ findMatches pats text,
      x.1 ≤ x.2.1 ∧ x.2.1 ≤ text.length ∧ x.2.2 < pats.length ∧
        x.2.1 = x.1 + (pats.getD x.2.2 []).length ∧
        occursAt text (pats.getD x.2.2 []) x.1 = true := by
  intro x hx
  obtain ⟨-, h2, h3, h4, h5, h6⟩ := findMatchesFrom_sound x hx
  exact ⟨h2, h3, h4, h5, h6⟩

lemma filter_text_spec (m : AcMachine) (text : ByteStr) :
    (m.filter_text text).length = text.length ∧
      ∀ i, i < text.length →
        (m.filter_text text).getD i 0 =
          if ∃ x ∈ m.find_matches text, x.1 ≤ i ∧ i < x.2.1 then 42
          else text.getD i 0 := by
  rcases hac : m.ac with _ | pats
  · have hft : m.filter_text text = text := by
      rw [AcMachine.filter_text, hac]
    have hfm : m.find_matches text = [] := by
      rw [AcMachine.find_matches, hac]
    rw [hft, hfm]
    refine ⟨rfl, ?_⟩
    intro i hi
    rw [if_neg (by simp)]
  · have hft : m.filter_text text = applyMasks text (findMatches pats text).reverse := by
      rw [AcMachine.filter_text, hac]
    have hfm : m.find_matches text =
        (findMatches pats text).map (fun x => (x.1, x.2.1, m.words.getD x.2.2 [])) := by
      rw [AcMachine.find_matches, hac]
    have hbounds : ∀ x ∈ (findMatches pats text).reverse,
        x.1 ≤ x.2.1 ∧ x.2.1 ≤ text.length := by
      intro x hx
      obtain ⟨h1, h2, -⟩ := findMatches_sound x (List.mem_reverse.mp hx)
      exact ⟨h1, h2⟩
    have hspec := applyMasks_spec _ text hbounds
    refine ⟨by rw [hft]; exact hspec.1, ?_⟩
    intro i hi
    have hcond : (∃ x ∈ (findMatches pats text).reverse, x.1 ≤ i ∧ i < x.2.1) ↔
        (∃ y ∈ m.find_matches text, y.1 ≤ i ∧ i < y.2.1) := by
      rw [hfm]
      constructor
      · rintro ⟨x, hx, hxi⟩
        exact ⟨(x.1, x.2.1, m.words.getD x.2.2 []),
          List.mem_map_of_mem _ (List.mem_reverse.mp hx), hxi⟩
      · rintro ⟨y, hy, hyi⟩
        obtain ⟨x, hx, rfl⟩ := List.mem_map.mp hy
        exact ⟨x, List.mem_reverse.mpr hx, hyi⟩
    rw [hft, hspec.2 i hi]
    simp only [hcond]

lemma validUtf8_head_not_cont {b : Nat} {r : ByteStr} (h : ValidUtf8 (b :: r)) :
    contB b = false := by
  cases h with
  | one h1 h2 => simp [contB]; omega
  | two h1 h2 h3 h4 => simp [contB]; omega
  | three h1 h2 h3 h4 h5 => simp [contB]; omega
  | four h1 h2 h3 h4 h5 => simp [contB]; omega

lemma validUtf8_isBoundary_zero {t : ByteStr} (h : ValidUtf8 t) :
    IsBoundary t 0 := by
  cases t with
  | nil => left; rfl
  | cons a r => right; exact ⟨by simp, validUtf8_head_not_cont h⟩

lemma isBoundary_cons {a : Nat} {t : ByteStr} {j : Nat} (h : IsBoundary t j) :
    IsBoundary (a :: t) (j + 1) := by
  rcases h with h | ⟨h1, h2⟩
  · left; simp [h]
  · refine Or.inr ⟨by simp; omega, ?_⟩
    simpa using h2

lemma validUtf8_inv_one {b : Nat} {r : ByteStr} (h : ValidUtf8 (b :: r))
    (hb : b < 128) : ValidUtf8 r := by
  cases h with
  | one h1 h2 => exact h2
  | two h1 h2 h3 h4 => omega
  | three h1 h2 h3 h4 h5 => omega
  | four h1 h2 h3 h4 h5 => omega

lemma validUtf8_inv_two {b : Nat} {r : ByteStr} (h : ValidUtf8 (b :: r))
    (hb1 : 192 ≤ b) (hb2 : b < 224) :
    ∃ b2 r2, r = b2 :: r2 ∧ contB b2 = true ∧ ValidUtf8 r2 := by
  cases h with
  | one h1 h2 => omega
  | two h1 h2 h3 h4 => exact ⟨_, _, rfl, h3, h4⟩
  | three h1 h2 h3 h4 h5 => omega
  | four h1 h2 h3 h4 h5 => omega

lemma validUtf8_inv_three {b : Nat} {r : ByteStr} (h : ValidUtf8 (b :: r))
    (hb1 : 224 ≤ b) (hb2 : b < 240) :
    ∃ b2 b3 r2, r = b2 :: b3 :: r2 ∧ contB b2 = true ∧ contB b3 = true ∧
      ValidUtf8 r2 := by
  cases h with
  | one h1 h2 => omega
  | two h1 h2 h3 h4 => omega
  | three h1 h2 h3 h4 h5 => exact ⟨_, _, _, rfl, h3, h4, h5⟩
  | four h1 h2 h3 h4 h5 => omega

lemma validUtf8_inv_four {b : Nat} {r : ByteStr} (h : ValidUtf8 (b :: r))
    (hb1 : 240 ≤ b) :
    ∃ b2 b3 b4 r2, r = b2 :: b3 :: b4 :: r2 ∧ contB b2 = true ∧
      contB b3 = true ∧ contB b4 = true ∧ ValidUtf8 r2 := by
  cases h with
  | one h1 h2 => omega
  | two h1 h2 h3 h4 => omega
  | three h1 h2 h3 h4 h5 => omega
  | four h1 h2 h3 h4 h5 => exact ⟨_, _, _, _, rfl, h2, h3, h4, h5⟩

lemma validUtf8_drop {t : ByteStr} (h : ValidUtf8 t) :
    ∀ i, contB (t.getD i 0) = false → ValidUtf8 (t.drop i) := by
  induction h with
  | nil => intro i _; simpa using ValidUtf8.nil
  | @one b r hb hr ih =>
    intro i hi
    match i with
    | 0 => exact ValidUtf8.one hb hr
    | j + 1 => exact ih j (by simpa using hi)
  | @two b1 b2 r h1 h2 h3 hr ih =>
    intro i hi
    match i with
    | 0 => exact ValidUtf8.two h1 h2 h3 hr
    | 1 =>
      exfalso
      have hc : contB b2 = false := by simpa using hi
      rw [h3] at hc
      simp at hc
    | j + 2 => exact ih j (by simpa using hi)
  | @three b1 b2 b3 r h1 h2 h3 h4 hr ih =>
    intro i hi
    match i with
    | 0 => exact ValidUtf8.three h1 h2 h3 h4 hr
    | 1 =>
      exfalso
      have hc : contB b2 = false := by simpa using hi
      rw [h3] at hc
      simp at hc
    | 2 =>
      exfalso
      have hc : contB b3 = false := by simpa using hi
      rw [h4] at hc
      simp at hc
    | j + 3 => exact ih j (by simpa using hi)
  | @four b1 b2 b3 b4 r h1 h2 h3 h4 hr ih =>
    intro i hi
    match i with
    | 0 => exact ValidUtf8.four h1 h2 h3 h4 hr
    | 1 =>
      exfalso
      have hc : contB b2 = false := by simpa using hi
      rw [h2] at hc
      simp at hc
    | 2 =>
      exfalso
      have hc : contB b3 = false := by simpa using hi
      rw [h3] at hc
      simp at hc
    | 3 =>
      exfalso
      have hc : contB b4 = false := by simpa using hi
      rw [h4] at hc
      simp at hc
    | j + 4 => exact ih j (by simpa using hi)

lemma validUtf8_take_boundary {p : ByteStr} (hp : ValidUtf8 p) :
    p ≠ [] → ∀ {t : ByteStr}, ValidUtf8 t → t.take p.length = p →
      IsBoundary t p.length := by
  induction hp with
  | nil => intro h; exact absurd rfl h
  | @one b r hb hr ih =>
    intro _ t ht htake
    cases t with
    | nil => simp at htake
    | cons a t2 =>
      rw [List.length_cons, List.take_succ_cons] at htake
      obtain ⟨hab, htk⟩ := List.cons.injEq .. ▸ htake
      subst hab
      have ht2 : ValidUtf8 t2 := validUtf8_inv_one ht hb
      have hbd : IsBoundary t2 r.length := by
        rcases eq_or_ne r [] with hr0 | hr0
        · subst hr0; exact validUtf8_isBoundary_zero ht2
        · exact ih hr0 ht2 htk
      simpa using isBoundary_cons hbd
  | @two b1 b2 r h1 h2 h3 hr ih =>
    intro _ t ht htake
    cases t with
    | nil => simp at htake
    | cons a t2 =>
      rw [List.length_cons, List.length_cons, List.take_succ_cons] at htake
      obtain ⟨hab, htk⟩ := List.cons.injEq .. ▸ htake
      subst hab
      obtain ⟨c2, t3, ht2eq, -, ht3⟩ := validUtf8_inv_two ht h1 h2
      subst ht2eq
      rw [List.take_succ_cons] at htk
      obtain ⟨hcb, htk2⟩ := List.cons.injEq .. ▸ htk
      subst hcb
      have hbd : IsBoundary t3 r.length := by
        rcases eq_or_ne r [] with hr0 | hr0
        · subst hr0; exact validUtf8_isBoundary_zero ht3
        · exact ih hr0 ht3 htk2
      simpa using isBoundary_cons (isBoundary_cons hbd)
  | @three b1 b2 b3 r h1 h2 h3 h4 hr ih =>
    intro _ t ht htake
    cases t with
    | nil => simp at htake
    | cons a t2 =>
      rw [List.length_cons, List.length_cons, List.length_cons,
        List.take_succ_cons] at htake
      obtain ⟨hab, htk⟩ := List.cons.injEq .. ▸ htake
      subst hab
      obtain ⟨c2, c3, t3, ht2eq, -, -, ht3⟩ := validUtf8_inv_three ht h1 h2
      subst ht2eq
      rw [List.take_succ_cons] at htk
      obtain ⟨hcb, htk2⟩ := List.cons.injEq .. ▸ htk
      subst hcb
      rw [List.take_succ_cons] at htk2
      obtain ⟨hcb2, htk3⟩ := List.cons.injEq .. ▸ htk2
      subst hcb2
      have hbd : IsBoundary t3 r.length := by
        rcases eq_or_ne r [] with hr0 | hr0
        · subst hr0; exact validUtf8_isBoundary_zero ht3
        · exact ih hr0 ht3 htk3
      simpa using isBoundary_cons (isBoundary_cons (isBoundary_cons hbd))
  | @four b1 b2 b3 b4 r h1 h2 h3 h4 hr ih =>
    intro _ t ht htake
    cases t with
    | nil => simp at htake
    | cons a t2 =>
      rw [List.length_cons, List.length_cons, List.length_cons,
        List.length_cons, List.take_succ_cons] at htake
      obtain ⟨hab, htk⟩ := List.cons.injEq .. ▸ htake
      subst hab
      obtain ⟨c2, c3, c4, t3, ht2eq, -, -, -, ht3⟩ := validUtf8_inv_four ht h1
      subst ht2eq
      rw [List.take_succ_cons] at htk
      obtain ⟨hcb, htk2⟩ := List.cons.injEq .. ▸ htk
      subst hcb
      rw [List.take_succ_cons] at htk2
      obtain ⟨hcb2, htk3⟩ := List.cons.injEq .. ▸ htk2
      subst hcb2
      rw [List.take_succ_cons] at htk3
      obtain ⟨hcb3, htk4⟩ := List.cons.injEq .. ▸ htk3
      subst hcb3
      have hbd : IsBoundary t3 r.length := by
        rcases eq_or_ne r [] with hr0 | hr0
        · subst hr0; exact validUtf8_isBoundary_zero ht3
        · exact ih hr0 ht3 htk4
      simpa using
        isBoundary_cons (isBoundary_cons (isBoundary_cons (isBoundary_cons hbd)))

lemma getD_drop (t : ByteStr) (s j : Nat) :
    (t.drop s).getD j 0 = t.getD (s + j) 0 := by
  rw [List.getD_eq_getElem?_getD, List.getD_eq_getElem?_getD, List.getElem?_drop]

lemma isBoundary_of_drop {t : ByteStr} {s j : Nat} (hs : s ≤ t.length)
    (h : IsBoundary (t.drop s) j) : IsBoundary t (s + j) := by
  rcases h with h | ⟨h1, h2⟩
  · left; rw [List.length_drop] at h; omega
  · rw [List.length_drop] at h1
    rw [getD_drop] at h2
    exact Or.inr ⟨by omega, h2⟩

lemma occursAt_boundary {t p : ByteStr} {s : Nat} (ht : ValidUtf8 t)
    (hp : ValidUtf8 p) (hne : p ≠ []) (hocc : occursAt t p s = true) :
    IsBoundary t s ∧ IsBoundary t (s + p.length) := by
  rw [occursAt, decide_eq_true_eq] at hocc
  have hplen : 0 < p.length := List.length_pos.mpr hne
  have hlen : p.length ≤ t.length - s := by
    have hc := congrArg List.length hocc
    rw [List.length_take, List.length_drop] at hc
    omega
  have hsl : s < t.length := by omega
  have hhead : t.getD s 0 = p.getD 0 0 := by
    have hc := congrArg (fun l : ByteStr => l.getD 0 0) hocc
    simp only [List.getD_eq_getElem?_getD, List.getElem?_take,
      List.getElem?_drop] at hc
    rw [if_pos hplen] at hc
    rw [List.getD_eq_getElem?_getD, List.getD_eq_getElem?_getD]
    simpa using hc
  have hhnc : contB (t.getD s 0) = false := by
    rw [hhead]
    cases p with
    | nil => exact absurd rfl hne
    | cons b q => simpa using validUtf8_head_not_cont hp
  have hbs : IsBoundary t s := Or.inr ⟨hsl, hhnc⟩
  have hdrop : ValidUtf8 (t.drop s) := validUtf8_drop ht s hhnc
  have hbd : IsBoundary (t.drop s) p.length :=
    validUtf8_take_boundary hp hne hdrop hocc
  exact ⟨hbs, isBoundary_of_drop (by omega) hbd⟩

lemma persist_from_words (ws : List ByteStr) :
    (AcMachine.from_words ws).persist = ws := by
  rw [AcMachine.persist, AcMachine.from_words, AcMachine.build]
  split <;> rfl

lemma consistent_none {m : AcMachine} (h : m.ac = none) : m.Consistent := by
  intro pats hp
  rw [h] at hp
  exact Option.noConfusion hp

lemma consistent_build {m : AcMachine} (h : m.Consistent) : m.build.Consistent := by
  rw [AcMachine.build]
  split
  · exact h
  · intro pats hp
    exact (Option.some.inj hp).symm

lemma chain_start_le {l : List (Nat × Nat × Nat)}
    (h : List.Chain' (fun a b : Nat × Nat × Nat => a.2.1 ≤ b.1) l)
    (hm : ∀ x ∈ l, x.1 ≤ x.2.1) :
    List.Chain' (fun a b : Nat × Nat × Nat => a.1 ≤ b.1) l := by
  induction l with
  | nil => simp
  | cons a l ih =>
    rw [List.chain'_cons'] at h ⊢
    refine ⟨?_, ih h.2 (fun x hx => hm x (List.mem_cons_of_mem _ hx))⟩
    intro y hy
    have h1 := h.1 y hy
    have h2 := hm a (List.mem_cons_self _ _)
    omega

/-- C1 (counterexample): `find_matches` does not commit to the
earliest-starting match.  With the word list `["abc", "b"]` and the text
`"abc"`, the word `"abc"` matches at start offset 0, yet the single reported
match starts at offset 1 (it is `"b"` at span `[1, 2)`), because the
default `MatchKind::Standard` semantics of the `aho_corasick` crate report
the match with the earliest end offset, not the earliest start offset. -/
theorem find_matches_not_leftmost_first :
    occursAt [97, 98, 99] [97, 98, 99] 0 = true ∧
    (AcMachine.from_words [[97, 98, 99], [98]]).find_matches [97, 98, 99]
      = [(1, 2, [98])] := by
  decide

/-- C1 (amended): `find_matches` performs the standard Aho-Corasick
non-overlapping scan: each reported match ends at the earliest offset in the
unconsumed text at which any configured term ends (ties broken towards the
longest term, first-registered among equal ones), the consumed span is
skipped, and scanning resumes after it; in particular, for the word list
`["abc", "bc"]` and the text `"xabcx"`, `find_matches` returns exactly one
match. -/
theorem find_matches_standard_leftmost_end :
    (∀ (pats : List ByteStr) (text : ByteStr) (pos s e i : Nat),
      findFrom pats text pos = some (s, e, i) →
      pos ≤ s ∧ s ≤ e ∧ candidatesAt pats text pos e ≠ [] ∧
        (∀ j, pos ≤ j → j < e → candidatesAt pats text pos j = []) ∧
        ∃ p, (i, p) ∈ candidatesAt pats text pos e ∧ s + p.length = e ∧
          ∀ q ∈ candidatesAt pats text pos e, q.2.length ≤ p.length) ∧
    (AcMachine.from_words [[97, 98, 99], [98, 99]]).find_matches
      [120, 97, 98, 99, 120] = [(1, 4, [97, 98, 99])] := by
  constructor
  · intro pats text pos s e i h
    have hmin := by
      rw [findFrom] at h
      exact findFromAux_min h
    rw [findFrom] at h
    obtain ⟨h1, h2, p, hp, hsp, hmax⟩ := findFromAux_sound h
    obtain ⟨hi, hgd, hfit, hocc⟩ := candidatesAt_sound hp
    refine ⟨by omega, by omega, ?_, ?_, p, hp, by omega, hmax⟩
    · intro hc
      rw [hc] at hp
      exact List.not_mem_nil _ hp
    · intro j hj1 hj2
      exact hmin j hj1 hj2
  · decide

/-- C1 (witness for the amended theorem): the scan characterisation applied
to the single word `"b"` in the text `"ab"`, whose first match is `(1, 2)`
with pattern id 0. -/
theorem find_matches_standard_leftmost_end_witness :
    0 ≤ 1 ∧ 1 ≤ 2 ∧ candidatesAt [[98]] [97, 98] 0 2 ≠ [] ∧
      (∀ j, 0 ≤ j → j < 2 → candidatesAt [[98]] [97, 98] 0 j = []) ∧
      ∃ p, (0, p) ∈ candidatesAt [[98]] [97, 98] 0 2 ∧ 1 + p.length = 2 ∧
        ∀ q ∈ candidatesAt [[98]] [97, 98] 0 2, q.2.length ≤ p.length :=
  find_matches_standard_leftmost_end.1 [[98]] [97, 98] 0 1 2 0 (by decide)

/-- C3: `filter_text` preserves the byte length of the input exactly, and
produces the input with every byte inside a reported match span replaced by
the mask byte 42 (the character code of the mask character) and every byte
outside all match spans unchanged. -/
theorem filter_text_length_and_mask (m : AcMachine) (text : ByteStr) :
    (m.filter_text text).length = text.length ∧
      ∀ i, i < text.length →
        (m.filter_text text).getD i 0 =
          if ∃ x ∈ m.find_matches text, x.1 ≤ i ∧ i < x.2.1 then 42
          else text.getD i 0 :=
  filter_text_spec m text

/-- C3 (witness): the machine built from the word `"b"` applied to `"abc"`
keeps length 3 and masks the byte at offset 1. -/
theorem filter_text_length_and_mask_witness :
    ((AcMachine.from_words [[98]]).filter_text [97, 98, 99]).length = 3 ∧
    ((AcMachine.from_words [[98]]).filter_text [97, 98, 99]).getD 1 0 =
      (if ∃ x ∈ (AcMachine.from_words [[98]]).find_matches [97, 98, 99],
          x.1 ≤ 1 ∧ 1 < x.2.1 then 42 else ([97, 98, 99] : ByteStr).getD 1 0) :=
  ⟨(filter_text_length_and_mask (AcMachine.from_words [[98]]) [97, 98, 99]).1,
   (filter_text_length_and_mask (AcMachine.from_words [[98]]) [97, 98, 99]).2 1
     (by decide)⟩

/-- C4: persisting the index built from a word list `ws` encodes exactly `ws`
(the matcher is never encoded), restoring the persisted record re-derives the
matcher via `build` and yields the very machine built from `ws`, so its
`find_matches` results coincide with those of the original index on every
text. -/
theorem persist_restore_round_trip (ws : List ByteStr) (text : ByteStr) :
    (AcMachine.from_words ws).persist = ws ∧
    AcMachine.restore ((AcMachine.from_words ws).persist) =
      AcMachine.from_words ws ∧
    (AcMachine.restore ((AcMachine.from_words ws).persist)).find_matches text
      = (AcMachine.from_words ws).find_matches text := by
  have h1 := persist_from_words ws
  have h2 : AcMachine.restore ((AcMachine.from_words ws).persist) =
      AcMachine.from_words ws := by
    rw [h1, AcMachine.restore, AcMachine.from_words]
  exact ⟨h1, h2, by rw [h2]⟩

/-- C6: when no matcher is present, `find_matches` returns the empty list and
`filter_text` returns the input unchanged (the source only logs a non-fatal
warning in this branch), so the service wrappers `filter` and
`find_sensitive_words`, being total functions, succeed on every input text. -/
theorem no_matcher_degraded_mode (m : AcMachine) (text : ByteStr)
    (h : m.ac = none) :
    m.find_matches text = [] ∧ m.filter_text text = text ∧
    SensitiveFilter.filter m text = text ∧
    SensitiveFilter.find_sensitive_words m text = [] := by
  have h1 : m.find_matches text = [] := by
    rw [AcMachine.find_matches, h]
  have h2 : m.filter_text text = text := by
    rw [AcMachine.filter_text, h]
  refine ⟨h1, h2, ?_, ?_⟩
  · rw [SensitiveFilter.filter]
    exact h2
  · rw [SensitiveFilter.find_sensitive_words, h1]
    rfl

/-- C6 (witness): the fresh machine, which has no matcher, on the text `"a"`. -/
theorem no_matcher_degraded_mode_witness :
    AcMachine.new.find_matches [97] = [] ∧
    AcMachine.new.filter_text [97] = [97] ∧
    SensitiveFilter.filter AcMachine.new [97] = [97] ∧
    SensitiveFilter.find_sensitive_words AcMachine.new [97] = [] :=
  no_matcher_degraded_mode AcMachine.new [97] rfl

/-- C7: on a machine whose matcher is consistent with its word list (the
built-index invariant), `find_matches` returns spans ordered by ascending
start offset and pairwise non-overlapping (each end offset is at most the
next start offset), each span half-open with `end - start` equal to the byte
length of the matched word and `end` within the text. -/
theorem find_matches_ordered_nonoverlapping (m : AcMachine) (text : ByteStr)
    (hm : m.Consistent) :
    List.Chain' (fun a b : Nat × Nat × ByteStr => a.2.1 ≤ b.1)
      (m.find_matches text) ∧
    List.Chain' (fun a b : Nat × Nat × ByteStr => a.1 ≤ b.1)
      (m.find_matches text) ∧
    ∀ x ∈ m.find_matches text,
      x.1 ≤ x.2.1 ∧ x.2.1 ≤ text.length ∧ x.2.1 = x.1 + x.2.2.length := by
  rcases hac : m.ac with _ | pats
  · have hfm : m.find_matches text = [] := by
      rw [AcMachine.find_matches, hac]
    rw [hfm]
    exact ⟨List.chain'_nil, List.chain'_nil, by simp⟩
  · have hpw : pats = m.words := hm pats hac
    have hfm : m.find_matches text =
        (findMatches pats text).map
          (fun x => (x.1, x.2.1, m.words.getD x.2.2 [])) := by
      rw [AcMachine.find_matches, hac]
    have hchain : List.Chain' (fun a b : Nat × Nat × Nat => a.2.1 ≤ b.1)
        (findMatches pats text) := findMatchesFrom_chain
    refine ⟨?_, ?_, ?_⟩
    · rw [hfm, List.chain'_map]
      exact hchain
    · rw [hfm, List.chain'_map]
      exact chain_start_le hchain (fun x hx => (findMatches_sound x hx).1)
    · intro x hx
      rw [hfm] at hx
      obtain ⟨y, hy, rfl⟩ := List.mem_map.mp hx
      obtain ⟨g1, g2, g3, g4, -⟩ := findMatches_sound y hy
      refine ⟨g1, g2, ?_⟩
      rw [← hpw]
      exact g4

/-- C7 (witness): the word `"bc"` in the text `"bcbc"` matches at spans
`[0, 2)` and `[2, 4)`, in order and non-overlapping, with span length 2. -/
theorem find_matches_ordered_nonoverlapping_witness :
    List.Chain' (fun a b : Nat × Nat × ByteStr => a.2.1 ≤ b.1)
      ((AcMachine.from_words [[98, 99]]).find_matches [98, 99, 98, 99]) ∧
    (0 : Nat) ≤ 2 ∧ (2 : Nat) ≤ 4 ∧
      (2 : Nat) = 0 + ([98, 99] : ByteStr).length := by
  have h := find_matches_ordered_nonoverlapping (AcMachine.from_words [[98, 99]])
    [98, 99, 98, 99] (fun pats hp => (Option.some.inj hp).symm)
  refine ⟨h.1, ?_⟩
  have h3 := h.2.2 (0, 2, [98, 99]) (by decide)
  exact ⟨h3.1, h3.2.1, h3.2.2⟩

/-- C8: when `find_matches` reports no match, `filter_text` returns the input
text itself, and in general `filter_text` masks exactly the spans reported by
`find_matches` (byte 42 inside a reported span, the original byte outside
all reported spans). -/
theorem filter_text_fixed_point (m : AcMachine) (text : ByteStr) :
    (m.find_matches text = [] → m.filter_text text = text) ∧
    ∀ i, i < text.length →
      (m.filter_text text).getD i 0 =
        if ∃ x ∈ m.find_matches text, x.1 ≤ i ∧ i < x.2.1 then 42
        else text.getD i 0 := by
  refine ⟨?_, (filter_text_spec m text).2⟩
  intro hemp
  rcases hac : m.ac with _ | pats
  · rw [AcMachine.filter_text, hac]
  · have hfm : m.find_matches text =
        (findMatches pats text).map
          (fun x => (x.1, x.2.1, m.words.getD x.2.2 [])) := by
      rw [AcMachine.find_matches, hac]
    rw [hfm] at hemp
    have hraw : findMatches pats text = [] := List.map_eq_nil_iff.mp hemp
    rw [AcMachine.filter_text, hac]
    show applyMasks text (findMatches pats text).reverse = text
    rw [hraw]
    rfl

/-- C8 (witness): the word `"b"` does not occur in `"aa"`, and filtering
leaves the text unchanged. -/
theorem filter_text_fixed_point_witness :
    (AcMachine.from_words [[98]]).filter_text [97, 97] = [97, 97] :=
  (filter_text_fixed_point (AcMachine.from_words [[98]]) [97, 97]).1 (by decide)

/-- C5: when the persisted index file is present but fails to restore, or is
absent, `init` is exactly the fallback `rebuild_index` call (so it succeeds
whenever the fallback rebuild succeeds and fails only when the fallback
fails); when the persisted file restores, `init` swaps the restored machine
in and succeeds. -/
theorem init_restore_failure_fallback (w : World) (live : AcMachine) :
    ((w.indexFile = .corrupt ∨ w.indexFile = .absent) →
      SensitiveFilter.init w live = SensitiveFilter.rebuild_index w live) ∧
    (∀ r, w.indexFile = .good r →
      SensitiveFilter.init w live = ⟨.ok, AcMachine.restore r, w⟩) := by
  obtain ⟨dic, idx, pf⟩ := w
  cases idx with
  | absent =>
    exact ⟨fun _ => rfl, fun r h => IndexFileState.noConfusion h⟩
  | corrupt =>
    exact ⟨fun _ => rfl, fun r h => IndexFileState.noConfusion h⟩
  | good r2 =>
    constructor
    · rintro (h | h) <;> exact IndexFileState.noConfusion h
    · intro r h
      injection h with h2
      subst h2
      rfl

/-- C5 (witness): with a corrupt persisted index and a readable one-word
dictionary, `init` equals the fallback rebuild and succeeds. -/
theorem init_restore_failure_fallback_witness :
    SensitiveFilter.init ⟨some [97], .corrupt, false⟩ AcMachine.new =
      SensitiveFilter.rebuild_index ⟨some [97], .corrupt, false⟩ AcMachine.new ∧
    (SensitiveFilter.init ⟨some [97], .corrupt, false⟩ AcMachine.new).res = .ok :=
  ⟨(init_restore_failure_fallback ⟨some [97], .corrupt, false⟩ AcMachine.new).1
      (Or.inl rfl),
   by decide⟩

/-- C10: whenever the compiled matcher is present on a machine produced by
the constructors of ac.rs it is consistent with the word list it was built
from; under that invariant every pattern id reported by the matcher is in
bounds for the word list, and, when the text and the (non-empty) words are
valid UTF-8, every reported span starts and ends on a character boundary of
the text, so the lookup `words[mat.pattern()]` and the `replace_range` call
of `filter_text` never fault. -/
theorem matcher_consistency_safety :
    AcMachine.new.Consistent ∧
    (∀ ws, (AcMachine.from_words ws).Consistent) ∧
    (∀ r, (AcMachine.restore r).Consistent) ∧
    (∀ m : AcMachine, m.Consistent → m.build.Consistent) ∧
    (∀ (m : AcMachine) (pats : List ByteStr) (text : ByteStr),
      m.Consistent → m.ac = some pats →
      ∀ x ∈ findMatches pats text, x.2.2 < m.words.length) ∧
    (∀ (m : AcMachine) (pats : List ByteStr) (text : ByteStr),
      m.Consistent → m.ac = some pats → ValidUtf8 text →
      (∀ p ∈ m.words, ValidUtf8 p ∧ p ≠ []) →
      ∀ x ∈ findMatches pats text,
        IsBoundary text x.1 ∧ IsBoundary text x.2.1) := by
  refine ⟨consistent_none rfl, ?_, ?_, fun m h => consistent_build h, ?_, ?_⟩
  · intro ws
    exact consistent_build (consistent_none rfl)
  · intro r
    exact consistent_build (consistent_none rfl)
  · intro m pats text hm hac x hx
    have hpw : pats = m.words := hm pats hac
    have := (findMatches_sound x hx).2.2.1
    rw [← hpw]
    exact this
  · intro m pats text hm hac hvt hw x hx
    have hpw : pats = m.words := hm pats hac
    obtain ⟨-, -, hlt, hspan, hocc⟩ := findMatches_sound x hx
    have hmem : pats.getD x.2.2 [] ∈ m.words := by
      rw [← hpw]
      rw [List.getD_eq_getElem pats [] hlt]
      exact List.getElem_mem hlt
    obtain ⟨huv, hune⟩ := hw _ hmem
    have hb := occursAt_boundary hvt huv hune hocc
    refine ⟨hb.1, ?_⟩
    rw [hspan]
    exact hb.2

/-- C10 (witness): the word `"é"` (bytes 195, 169) in the text `"aé"`
(bytes 97, 195, 169) matches at span `[1, 3)`, and both endpoints are
character boundaries of the text. -/
theorem matcher_consistency_safety_witness :
    IsBoundary [97, 195, 169] 1 ∧ IsBoundary [97, 195, 169] 3 := by
  have hv : ValidUtf8 [97, 195, 169] :=
    ValidUtf8.one (by omega)
      (ValidUtf8.two (by omega) (by omega) (by decide) ValidUtf8.nil)
  have hw : ∀ p ∈ (AcMachine.from_words [[195, 169]]).words,
      ValidUtf8 p ∧ p ≠ [] := by
    intro p hp
    have hp2 : p = [195, 169] := by
      rcases List.mem_singleton.mp hp with h
      exact h
    subst hp2
    exact ⟨ValidUtf8.two (by omega) (by omega) (by decide) ValidUtf8.nil,
      by decide⟩
  have h := matcher_consistency_safety.2.2.2.2.2
    (AcMachine.from_words [[195, 169]]) [[195, 169]] [97, 195, 169]
    (fun pats hp => (Option.some.inj hp).symm) rfl hv hw (1, 3, 0) (by decide)
  exact h

end SensitiveWord
